import Mathlib

/-!
# Rufus semantic crawler — verification of the crawl control core

Shallow embedding of `src/rufus.py` (class `Rufus`): the depth-bounded
recursive traversal `crawl_page`, link analysis `analyze_page_links`, the
classification-gateway response handling, `save_results` and the `crawl`
entry point.  External collaborators (the browser and the LLM oracle) are
modelled by a `World` of deterministic response functions; a failed page
load (`page.goto` raising) is `World.loadPage = none`.  Python dicts are
modelled as insertion-ordered association lists, Python sets as lists
without duplicates.
-/

namespace Rufus

/-- One oracle/browser interaction, recorded in order of occurrence. -/
inductive Event where
  | expandKeywords : Event
  | classifyFollow : String → Event
  | loadPage : String → Event
  | classifyRelevance : String → Event
  | enterVisit : String → Nat → Event
deriving DecidableEq

/-- An anchor element of a rendered page: its `href` attribute, inner text,
and the text content of its parent element. -/
structure Anchor where
  href : String
  linkText : String
  parentText : String
deriving DecidableEq

/-- A rendered page: visible body text, title, anchors in document order. -/
structure Page where
  body : String
  title : String
  anchors : List Anchor
deriving DecidableEq

/-- The external world: `urljoin` (Python's `urllib.parse.urljoin`),
the keyword-expansion oracle response (already fail-closed, see
`get_semantic_keywords`), the page loader (`none` = navigation raised),
and the two TRUE/FALSE classifiers, argument order as in the source:
`isRelevant content instruction keywords`,
`shouldFollow link_text href instruction keywords surrounding_text`. -/
structure World where
  urljoin : String → String → String
  expandKeywords : String → List String
  loadPage : String → Option Page
  isRelevant : String → String → List String → Bool
  shouldFollow : String → String → String → List String → String → Bool

/-- `page_data` record for a relevant page (rufus.py lines 233-240; the
wall-clock `crawl_time` field is not modelled). -/
structure PageRecord where
  url : String
  depth : Nat
  content : String
  title : String
  matched_keywords : List String
deriving DecidableEq

/-- Insertion-ordered association list standing for a Python dict:
assigning to an existing key overwrites its value in place, a new key is
appended at the end. -/
def dinsert {α β : Type} [DecidableEq α] (d : List (α × β)) (k : α) (v : β) :
    List (α × β) :=
  if d.any (fun p => p.1 = k) then
    d.map (fun p => if p.1 = k then (k, v) else p)
  else d ++ [(k, v)]

/-- Dict lookup. -/
def dlookup {α β : Type} [DecidableEq α] (d : List (α × β)) (k : α) : Option β :=
  (d.find? (fun p => p.1 = k)).map (fun p => p.2)

/-- Dict key list. -/
def dkeys {α β : Type} (d : List (α × β)) : List α :=
  d.map (fun p => p.1)

/-- `self.depth_data[k].append(u)` for a key `k` already present. -/
def dappend (d : List (Nat × List String)) (k : Nat) (u : String) :
    List (Nat × List String) :=
  d.map (fun p => if p.1 = k then (p.1, p.2 ++ [u]) else p)

/-- The mutable fields of the `Rufus` instance (rufus.py lines 37-41),
plus the trace of external interactions performed so far. -/
structure CrawlState where
  visited_urls : List String
  page_relevance : List (String × Bool)
  page_data : List (String × PageRecord)
  depth_data : List (Nat × List String)
  keywords : List String
  trace : List Event
deriving DecidableEq

/-- The fresh state built by `Rufus.__init__`. -/
def initState : CrawlState :=
  { visited_urls := [], page_relevance := [], page_data := [],
    depth_data := [], keywords := [], trace := [] }

end Rufus

namespace Rufus

/-- `get_semantic_keywords` (rufus.py lines 43-78) as a function of the
oracle response: on success the comma-separated content is split and each
piece stripped; any exception is caught and yields `[]`. -/
def get_semantic_keywords (resp : Except String String) : List String :=
  match resp with
  | Except.ok content => (content.splitOn ",").map (fun kw => kw.trim)
  | Except.error _ => []

/-- `is_content_relevant` (rufus.py lines 80-121) as a function of the
oracle response: the stripped, upper-cased content is compared to "TRUE";
any exception is caught and yields `false`. -/
def is_content_relevant (resp : Except String String) : Bool :=
  match resp with
  | Except.ok content => content.trim.toUpper == "TRUE"
  | Except.error _ => false

/-- `should_follow_link` (rufus.py lines 123-167) as a function of the
oracle response: same TRUE/FALSE parse, `false` on exception. -/
def should_follow_link (resp : Except String String) : Bool :=
  match resp with
  | Except.ok content => content.trim.toUpper == "TRUE"
  | Except.error _ => false

end Rufus

namespace Rufus

/-- Is an event a keyword-expansion oracle call? -/
def isKwEvent : Event → Bool
  | Event.expandKeywords => true
  | _ => false

/-- Number of keyword-expansion oracle calls in a trace. -/
def kwCount (t : List Event) : Nat :=
  t.countP isKwEvent

end Rufus

namespace Rufus

/-- Python's `str.startswith`: the first string begins with the second,
as a prefix of the character sequence. -/
def startswith (s pre : String) : Bool :=
  pre.data.isPrefixOf s.data

/-- Python's `str.endswith` on a one-character suffix, as used at
rufus.py line 299 (`base_url.endswith('/')`). -/
def endswith (s suf : String) : Bool :=
  suf.data.isSuffixOf s.data

/-- `analyze_page_links` loop body (rufus.py lines 179-192), iterating the
page's anchors in document order.  `acc` is the `link_relevance` dict built
so far and `evs` the classifier calls already made; the visited set is the
one at loop start (it is not mutated during the loop). -/
def analyze_go (w : World) (visited keywords : List String)
    (instruction current_url base_url : String) :
    List Anchor → List (String × Bool) → List Event →
    List (String × Bool) × List Event
  | [], acc, evs => (acc, evs)
  | a :: rest, acc, evs =>
    if a.href ≠ "" then
      let absolute_url := w.urljoin current_url a.href
      if startswith absolute_url base_url ∧ absolute_url ∉ visited then
        let surrounding_text := a.parentText.take 200
        let verdict := w.shouldFollow a.linkText absolute_url instruction
          keywords surrounding_text
        analyze_go w visited keywords instruction current_url base_url rest
          (dinsert acc absolute_url verdict)
          (evs ++ [Event.classifyFollow absolute_url])
      else
        analyze_go w visited keywords instruction current_url base_url rest acc evs
    else
      analyze_go w visited keywords instruction current_url base_url rest acc evs

/-- `analyze_page_links` (rufus.py lines 169-198): the `link_relevance`
dict together with the classifier calls performed while building it. -/
def analyze_page_links (w : World) (visited keywords : List String)
    (instruction current_url base_url : String) (anchors : List Anchor) :
    List (String × Bool) × List Event :=
  analyze_go w visited keywords instruction current_url base_url anchors [] []

/-- rufus.py line 210 plus the trace entry for beginning traversal. -/
def mark_visited (st : CrawlState) (current_url : String) (depth : Nat) :
    CrawlState :=
  { st with visited_urls := st.visited_urls ++ [current_url],
            trace := st.trace ++ [Event.enterVisit current_url depth] }

/-- rufus.py lines 212-213: `if depth not in self.depth_data:
self.depth_data[depth] = []`. -/
def ensure_depth_key (st : CrawlState) (depth : Nat) : CrawlState :=
  if st.depth_data.any (fun p => p.1 = depth) then st
  else { st with depth_data := st.depth_data ++ [(depth, [])] }

/-- rufus.py lines 217-218: `if not self.keywords: self.keywords = await
self.get_semantic_keywords(instruction)`. -/
def ensure_keywords (w : World) (instruction : String) (st : CrawlState) :
    CrawlState :=
  if st.keywords.isEmpty then
    { st with keywords := w.expandKeywords instruction,
              trace := st.trace ++ [Event.expandKeywords] }
  else st

/-- rufus.py lines 227-241: classify the page content, record the verdict
in `page_relevance` unconditionally, and when relevant store the
`page_data` record and append the URL to `depth_data[depth]`. -/
def record_relevance (w : World) (instruction : String) (st : CrawlState)
    (current_url : String) (depth : Nat) (pg : Page) : CrawlState :=
  let is_relevant := w.isRelevant pg.body instruction st.keywords
  let st := { st with
    page_relevance := dinsert st.page_relevance current_url is_relevant,
    trace := st.trace ++ [Event.classifyRelevance current_url] }
  if is_relevant then
    { st with
      page_data := dinsert st.page_data current_url
        { url := current_url, depth := depth, content := pg.body,
          title := pg.title, matched_keywords := st.keywords },
      depth_data := dappend st.depth_data depth current_url }
  else st

/-- rufus.py lines 243-245: run `analyze_page_links` only when
`depth < max_depth`; returns the `link_relevance` dict to recurse over. -/
def expand_links (w : World) (base_url instruction : String) (max_depth : Nat)
    (st : CrawlState) (current_url : String) (depth : Nat) (pg : Page) :
    CrawlState × List (String × Bool) :=
  if depth < max_depth then
    let r := analyze_page_links w st.visited_urls st.keywords instruction
      current_url base_url pg.anchors
    ({ st with trace := st.trace ++ r.2 }, r.1)
  else (st, [])

/-- The body of `crawl_page` after its guard (rufus.py lines 210-245), up
to but excluding the recursion: returns the updated state and the
`link_relevance` dict whose entries the `for` loop at lines 247-252 will
iterate ( `[]` when the load raised or `depth = max_depth`).  A `loadPage`
result of `none` models `page.goto`/extraction raising: the `except` at
line 254 swallows it, leaving the state as already mutated. -/
def visit_step (w : World) (base_url instruction : String) (max_depth : Nat)
    (st : CrawlState) (current_url : String) (depth : Nat) :
    CrawlState × List (String × Bool) :=
  let st := mark_visited st current_url depth
  let st := ensure_depth_key st depth
  let st := ensure_keywords w instruction st
  match w.loadPage current_url with
  | none => ({ st with trace := st.trace ++ [Event.loadPage current_url] }, [])
  | some pg =>
    let st := { st with trace := st.trace ++ [Event.loadPage current_url] }
    let st := record_relevance w instruction st current_url depth pg
    expand_links w base_url instruction max_depth st current_url depth pg

/-- The `for url, relevant in link_relevance.items()` loop of `crawl_page`
(rufus.py lines 247-252); `f` is the recursive call at depth+1. -/
def crawl_links_go (f : CrawlState → String → CrawlState) :
    CrawlState → List (String × Bool) → CrawlState
  | st, [] => st
  | st, (url, relevant) :: rest =>
    let st := if relevant ∧ url ∉ st.visited_urls then f st url else st
    crawl_links_go f st rest

/-- `crawl_page` with the depth budget `gas` made an explicit structural
argument.  With `gas = max_depth + 1 - depth` this is exactly the source
recursion: `gas = 0` holds precisely when `depth > max_depth`, in which
case the source's guard returns immediately, and the recursive calls at
`depth + 1` carry `max_depth + 1 - (depth + 1) = gas - 1`.
(`crawl_page_eq` below proves the resulting defining equation.) -/
def crawl_go (w : World) (base_url instruction : String) (max_depth : Nat) :
    Nat → CrawlState → String → Nat → CrawlState
  | 0, st, _, _ => st
  | gas + 1, st, current_url, depth =>
    if depth > max_depth ∨ current_url ∈ st.visited_urls then st
    else
      let v := visit_step w base_url instruction max_depth st current_url depth
      crawl_links_go
        (fun s u => crawl_go w base_url instruction max_depth gas s u (depth + 1))
        v.1 v.2

/-- `crawl_page` (rufus.py lines 200-255). -/
def crawl_page (w : World) (base_url instruction : String) (max_depth : Nat)
    (st : CrawlState) (current_url : String) (depth : Nat) : CrawlState :=
  crawl_go w base_url instruction max_depth (max_depth + 1 - depth)
    st current_url depth

/-- The report structure assembled by `save_results` (rufus.py lines
266-283); `depth_analysis` entries are (depth, urls, count). -/
structure Report where
  base_url : String
  instruction : String
  total_pages : Nat
  relevant_pages : Nat
  keywords_used : List String
  relevance_map : List (String × Bool)
  depth_analysis : List (Nat × List String × Nat)
  page_data : List (String × PageRecord)
deriving DecidableEq

/-- `save_results` (rufus.py lines 257-289) as the pure report builder;
the timestamped filename and file write are external I/O. -/
def save_results (st : CrawlState) (base_url instruction : String) : Report :=
  { base_url := base_url, instruction := instruction,
    total_pages := st.visited_urls.length,
    relevant_pages := (st.page_relevance.filter (fun p => p.2)).length,
    keywords_used := st.keywords,
    relevance_map := st.page_relevance,
    depth_analysis := st.depth_data.map (fun p => (p.1, p.2, p.2.length)),
    page_data := st.page_data }

/-- Base-URL normalization at the top of `crawl` (rufus.py lines 297-300). -/
def normalize_base_url (base_url : String) : String :=
  let b := if startswith base_url "http://" ∨ startswith base_url "https://"
           then base_url else "https://" ++ base_url
  if endswith b "/" then b else b ++ "/"

/-- `crawl` (rufus.py lines 291-314).  The traversal runs from a fresh
state seeded with the normalized base URL at depth 0; `save_results` is
then invoked (`write_ok = false` models the file write raising — the
exception is caught at line 311 and only logged).  The Python method has
no `return` statement, so its return value is `None` on every path; the
accumulated crawl state remains available on the `Rufus` object.  Result:
(final object state, value returned by the method). -/
def crawl (w : World) (write_ok : Bool) (base_url instruction : String)
    (max_depth : Nat) : CrawlState × Option Report :=
  let b := normalize_base_url base_url
  let st := crawl_page w b instruction max_depth initState b 0
  let _written : Option Report :=
    if write_ok then some (save_results st b instruction) else none
  (st, none)

end Rufus

namespace Rufus

/-! ## Association-list (dict) lemmas -/

theorem mem_dkeys {α β : Type} {d : List (α × β)} {k : α} :
    k ∈ dkeys d ↔ ∃ v, (k, v) ∈ d := by
  constructor
  · intro h
    rcases List.mem_map.mp h with ⟨p, hp, hpk⟩
    exact ⟨p.2, by rw [← hpk]; exact hp⟩
  · rintro ⟨v, hv⟩
    exact List.mem_map.mpr ⟨(k, v), hv, rfl⟩

theorem mem_dinsert {α β : Type} [DecidableEq α] {d : List (α × β)} {k : α}
    {v : β} {p : α × β} (hp : p ∈ dinsert d k v) : p.1 = k ∨ p ∈ d := by
  unfold dinsert at hp
  split at hp
  · rcases List.mem_map.mp hp with ⟨q, hq, hqe⟩
    by_cases h : q.1 = k
    · rw [if_pos h] at hqe
      left; rw [← hqe]
    · rw [if_neg h] at hqe
      right; rw [← hqe]; exact hq
  · rcases List.mem_append.mp hp with h | h
    · right; exact h
    · left; simp only [List.mem_singleton] at h; rw [h]

theorem dkeys_dinsert {α β : Type} [DecidableEq α] (d : List (α × β)) (k : α)
    (v : β) :
    dkeys (dinsert d k v) = if k ∈ dkeys d then dkeys d else dkeys d ++ [k] := by
  unfold dinsert
  have hiff : (d.any fun p => p.1 = k) = true ↔ k ∈ dkeys d := by
    simp only [List.any_eq_true, decide_eq_true_eq, mem_dkeys]
    constructor
    · rintro ⟨p, hp, hpk⟩; exact ⟨p.2, by rw [← hpk]; exact hp⟩
    · rintro ⟨w, hw⟩; exact ⟨(k, w), hw, rfl⟩
  by_cases h : k ∈ dkeys d
  · rw [if_pos (hiff.mpr h), if_pos h]
    unfold dkeys
    rw [List.map_map]
    refine List.map_congr_left ?_
    intro p _
    by_cases hp : p.1 = k <;> simp [hp]
  · rw [if_neg (fun hc => h (hiff.mp hc)), if_neg h]
    unfold dkeys
    rw [List.map_append]
    rfl

theorem mem_dkeys_dinsert_self {α β : Type} [DecidableEq α] (d : List (α × β))
    (k : α) (v : β) : k ∈ dkeys (dinsert d k v) := by
  rw [dkeys_dinsert]
  split
  · assumption
  · exact List.mem_append_right _ (List.mem_singleton.mpr rfl)

theorem mem_dkeys_dinsert_of_mem {α β : Type} [DecidableEq α]
    {d : List (α × β)} {k u : α} {v : β} (h : u ∈ dkeys d) :
    u ∈ dkeys (dinsert d k v) := by
  rw [dkeys_dinsert]
  split
  · exact h
  · exact List.mem_append_left _ h

theorem mem_dkeys_dinsert {α β : Type} [DecidableEq α] {d : List (α × β)}
    {k u : α} {v : β} (h : u ∈ dkeys (dinsert d k v)) : u = k ∨ u ∈ dkeys d := by
  rw [dkeys_dinsert] at h
  split at h
  · right; exact h
  · rcases List.mem_append.mp h with h | h
    · right; exact h
    · left; exact List.mem_singleton.mp h

theorem dlookup_dinsert_self {α β : Type} [DecidableEq α] (d : List (α × β))
    (k : α) (v : β) : dlookup (dinsert d k v) k = some v := by
  unfold dinsert dlookup
  split
  · rename_i hany
    rcases List.any_eq_true.mp hany with ⟨p, hp, hpk⟩
    rw [decide_eq_true_eq] at hpk
    rw [List.find?_map]
    have hcomp : ((fun p : α × β => decide (p.1 = k)) ∘
        fun p => if p.1 = k then (k, v) else p) =
        fun p : α × β => decide (p.1 = k) := by
      funext q
      show decide ((if q.1 = k then (k, v) else q).1 = k) = decide (q.1 = k)
      by_cases h : q.1 = k
      · rw [if_pos h, h]
      · rw [if_neg h]
    rw [hcomp]
    have hsome : (List.find? (fun p : α × β => decide (p.1 = k)) d).isSome = true :=
      List.find?_isSome.mpr ⟨p, hp, by rw [decide_eq_true_eq]; exact hpk⟩
    rcases hq : List.find? (fun p : α × β => decide (p.1 = k)) d with _ | q
    · rw [hq] at hsome; cases hsome
    · have hqk : q.1 = k := by
        have := List.find?_some hq
        rwa [decide_eq_true_eq] at this
      simp [if_pos hqk]
  · rw [List.find?_append]
    rename_i hany
    have hnone : List.find? (fun p : α × β => decide (p.1 = k)) d = none := by
      rw [List.find?_eq_none]
      intro x hx hc
      rw [decide_eq_true_eq] at hc
      exact hany (List.any_eq_true.mpr ⟨x, hx, by rw [decide_eq_true_eq]; exact hc⟩)
    rw [hnone]
    simp [List.find?]

theorem dlookup_dinsert_ne {α β : Type} [DecidableEq α] (d : List (α × β))
    (k u : α) (v : β) (huk : u ≠ k) :
    dlookup (dinsert d k v) u = dlookup d u := by
  unfold dinsert dlookup
  have hku : ¬ (k = u) := fun hc => huk hc.symm
  split
  · rw [List.find?_map]
    have hcomp : ((fun p : α × β => decide (p.1 = u)) ∘
        fun p => if p.1 = k then (k, v) else p) =
        fun p : α × β => decide (p.1 = u) := by
      funext q
      show decide ((if q.1 = k then (k, v) else q).1 = u) = decide (q.1 = u)
      by_cases h : q.1 = k
      · rw [if_pos h, h]
      · rw [if_neg h]
    rw [hcomp]
    rcases hq : List.find? (fun p : α × β => decide (p.1 = u)) d with _ | q
    · rfl
    · have hqu : q.1 = u := by
        have := List.find?_some hq
        rwa [decide_eq_true_eq] at this
      have hqk : ¬ q.1 = k := by rw [hqu]; exact huk
      simp [if_neg hqk]
  · rw [List.find?_append]
    have h2 : List.find? (fun p : α × β => decide (p.1 = u)) [(k, v)] = none := by
      simp [List.find?, hku]
    rw [h2, Option.or_none]

theorem dkeys_dappend (d : List (Nat × List String)) (k : Nat) (u : String) :
    dkeys (dappend d k u) = dkeys d := by
  unfold dappend dkeys
  rw [List.map_map]
  refine List.map_congr_left ?_
  intro p _
  by_cases hp : p.1 = k <;> simp [hp]

theorem mem_dappend {d : List (Nat × List String)} {k : Nat} {u : String}
    {p : Nat × List String} (hp : p ∈ dappend d k u) :
    ∃ q ∈ d, p.1 = q.1 ∧ (p.2 = q.2 ∨ (p.1 = k ∧ p.2 = q.2 ++ [u])) := by
  unfold dappend at hp
  rcases List.mem_map.mp hp with ⟨q, hq, hqe⟩
  by_cases h : q.1 = k
  · rw [if_pos h] at hqe
    exact ⟨q, hq, by rw [← hqe], Or.inr ⟨by rw [← hqe]; exact h, by rw [← hqe]⟩⟩
  · rw [if_neg h] at hqe
    exact ⟨q, hq, by rw [← hqe], Or.inl (by rw [← hqe])⟩

/-! ## The defining equation of `crawl_page` -/

/-- `crawl_page` satisfies the source's recursion verbatim: guard at
rufus.py line 207, then the visit body, then the link loop recursing at
`depth + 1`. -/
theorem crawl_page_eq (w : World) (b i : String) (m : Nat) (st : CrawlState)
    (url : String) (depth : Nat) :
    crawl_page w b i m st url depth =
      if depth > m ∨ url ∈ st.visited_urls then st
      else
        crawl_links_go (fun s u => crawl_page w b i m s u (depth + 1))
          (visit_step w b i m st url depth).1
          (visit_step w b i m st url depth).2 := by
  unfold crawl_page
  rcases h : m + 1 - depth with _ | gas
  · have hd : depth > m := by omega
    simp [crawl_go, hd]
  · have hg : m + 1 - (depth + 1) = gas := by omega
    simp only [crawl_go]
    simp only [hg]

/-! ## Generic preservation lemmas -/

theorem crawl_links_go_pres {P : CrawlState → Prop} {Q : String → Prop}
    {f : CrawlState → String → CrawlState}
    (hf : ∀ st u, Q u → u ∉ st.visited_urls → P st → P (f st u)) :
    ∀ {lr : List (String × Bool)} {st : CrawlState},
      (∀ p ∈ lr, Q p.1) → P st → P (crawl_links_go f st lr) := by
  intro lr
  induction lr with
  | nil => intro st _ hP; exact hP
  | cons p rest ih =>
    intro st hQ hP
    rcases p with ⟨url, relevant⟩
    simp only [crawl_links_go]
    refine ih (fun q hq => hQ q (List.mem_cons_of_mem _ hq)) ?_
    split
    · rename_i hcond
      exact hf st url (hQ ⟨url, relevant⟩ (List.mem_cons_self _ _)) hcond.2 hP
    · exact hP

theorem crawl_go_pres {w : World} {b i : String} {m : Nat}
    {P : CrawlState → Prop} {Q : String → Prop}
    (hstep : ∀ st url depth, depth ≤ m → url ∉ st.visited_urls → Q url →
      P st → P (visit_step w b i m st url depth).1)
    (hlinks : ∀ st url depth, depth ≤ m → url ∉ st.visited_urls → Q url →
      P st → ∀ p ∈ (visit_step w b i m st url depth).2, Q p.1) :
    ∀ gas st url depth, Q url → P st →
      P (crawl_go w b i m gas st url depth) := by
  intro gas
  induction gas with
  | zero => intro st url depth _ hP; exact hP
  | succ gas ih =>
    intro st url depth hQ hP
    simp only [crawl_go]
    split
    · exact hP
    · rename_i hguard
      push_neg at hguard
      have hdm : depth ≤ m := by omega
      refine crawl_links_go_pres (fun s u hQu _ hPs => ih s u (depth + 1) hQu hPs)
        (hlinks st url depth hdm hguard.2 hQ hP)
        (hstep st url depth hdm hguard.2 hQ hP)

/-- Preservation through `crawl_page`, with the visited predicate `Q`
holding for every URL the link analysis can emit. -/
theorem crawl_page_pres {w : World} {b i : String} {m : Nat}
    {P : CrawlState → Prop} {Q : String → Prop}
    (hstep : ∀ st url depth, depth ≤ m → url ∉ st.visited_urls → Q url →
      P st → P (visit_step w b i m st url depth).1)
    (hlinks : ∀ st url depth, depth ≤ m → url ∉ st.visited_urls → Q url →
      P st → ∀ p ∈ (visit_step w b i m st url depth).2, Q p.1) :
    ∀ st url depth, Q url → P st → P (crawl_page w b i m st url depth) := by
  intro st url depth
  exact crawl_go_pres hstep hlinks (m + 1 - depth) st url depth

/-! ## Stage lemmas for `visit_step` -/

theorem ensure_depth_key_fields (st : CrawlState) (depth : Nat) :
    (ensure_depth_key st depth).visited_urls = st.visited_urls ∧
    (ensure_depth_key st depth).page_relevance = st.page_relevance ∧
    (ensure_depth_key st depth).page_data = st.page_data ∧
    (ensure_depth_key st depth).keywords = st.keywords ∧
    (ensure_depth_key st depth).trace = st.trace := by
  unfold ensure_depth_key
  split <;> simp

theorem ensure_depth_key_dd_cases (st : CrawlState) (depth : Nat) :
    (ensure_depth_key st depth).depth_data = st.depth_data ∨
    (ensure_depth_key st depth).depth_data = st.depth_data ++ [(depth, [])] := by
  unfold ensure_depth_key
  split
  · left; rfl
  · right; rfl

theorem ensure_depth_key_key_mem (st : CrawlState) (depth : Nat) :
    depth ∈ dkeys (ensure_depth_key st depth).depth_data := by
  unfold ensure_depth_key
  split
  · rename_i hany
    rcases List.any_eq_true.mp hany with ⟨p, hp, hpk⟩
    rw [decide_eq_true_eq] at hpk
    exact mem_dkeys.mpr ⟨p.2, by rw [← hpk, Prod.mk.eta]; exact hp⟩
  · simp [dkeys]

theorem ensure_depth_key_dd_mem {st : CrawlState} {depth : Nat}
    {p : Nat × List String} (hp : p ∈ (ensure_depth_key st depth).depth_data) :
    p ∈ st.depth_data ∨ p = (depth, []) := by
  rcases ensure_depth_key_dd_cases st depth with h | h <;> rw [h] at hp
  · left; exact hp
  · rcases List.mem_append.mp hp with h' | h'
    · left; exact h'
    · right; exact List.mem_singleton.mp h'

theorem ensure_keywords_spec (w : World) (i : String) (st : CrawlState) :
    (st.keywords = [] ∧ ensure_keywords w i st =
      { st with keywords := w.expandKeywords i,
                trace := st.trace ++ [Event.expandKeywords] }) ∨
    (st.keywords ≠ [] ∧ ensure_keywords w i st = st) := by
  unfold ensure_keywords
  split
  · rename_i h
    exact Or.inl ⟨List.isEmpty_iff.mp h, rfl⟩
  · rename_i h
    exact Or.inr ⟨fun hc => h (List.isEmpty_iff.mpr hc), rfl⟩

theorem ensure_keywords_fields (w : World) (i : String) (st : CrawlState) :
    (ensure_keywords w i st).visited_urls = st.visited_urls ∧
    (ensure_keywords w i st).page_relevance = st.page_relevance ∧
    (ensure_keywords w i st).page_data = st.page_data ∧
    (ensure_keywords w i st).depth_data = st.depth_data := by
  unfold ensure_keywords
  split <;> simp

theorem record_relevance_fields (w : World) (i : String) (st : CrawlState)
    (url : String) (depth : Nat) (pg : Page) :
    (record_relevance w i st url depth pg).visited_urls = st.visited_urls ∧
    (record_relevance w i st url depth pg).keywords = st.keywords ∧
    (record_relevance w i st url depth pg).trace =
      st.trace ++ [Event.classifyRelevance url] := by
  unfold record_relevance
  rcases h : w.isRelevant pg.body i st.keywords <;> simp [h]

/-- The two outcomes of the relevance classification (rufus.py
lines 228-241). -/
theorem record_relevance_spec (w : World) (i : String) (st : CrawlState)
    (url : String) (depth : Nat) (pg : Page) :
    (w.isRelevant pg.body i st.keywords = true ∧
      (record_relevance w i st url depth pg).page_relevance =
        dinsert st.page_relevance url true ∧
      (record_relevance w i st url depth pg).page_data =
        dinsert st.page_data url
          { url := url, depth := depth, content := pg.body,
            title := pg.title, matched_keywords := st.keywords } ∧
      (record_relevance w i st url depth pg).depth_data =
        dappend st.depth_data depth url) ∨
    (w.isRelevant pg.body i st.keywords = false ∧
      (record_relevance w i st url depth pg).page_relevance =
        dinsert st.page_relevance url false ∧
      (record_relevance w i st url depth pg).page_data = st.page_data ∧
      (record_relevance w i st url depth pg).depth_data = st.depth_data) := by
  unfold record_relevance
  rcases h : w.isRelevant pg.body i st.keywords <;> simp [h]

theorem expand_links_spec (w : World) (b i : String) (m : Nat)
    (st : CrawlState) (url : String) (depth : Nat) (pg : Page) :
    (depth < m ∧
      (expand_links w b i m st url depth pg).1 =
        { st with trace := st.trace ++
          (analyze_page_links w st.visited_urls st.keywords i url b pg.anchors).2 } ∧
      (expand_links w b i m st url depth pg).2 =
        (analyze_page_links w st.visited_urls st.keywords i url b pg.anchors).1) ∨
    (¬ depth < m ∧ expand_links w b i m st url depth pg = (st, [])) := by
  unfold expand_links
  split
  · rename_i h
    exact Or.inl ⟨h, rfl, rfl⟩
  · rename_i h
    exact Or.inr ⟨h, rfl⟩

/-! ## Lemmas about `analyze_page_links` -/

theorem analyze_go_keys {w : World} {visited keywords : List String}
    {i cu b : String} :
    ∀ (anchors : List Anchor) (acc : List (String × Bool)) (evs : List Event)
      (k : String),
      k ∈ dkeys (analyze_go w visited keywords i cu b anchors acc evs).1 →
      k ∈ dkeys acc ∨ (startswith k b = true ∧ k ∉ visited) := by
  intro anchors
  induction anchors with
  | nil =>
    intro acc evs k hk
    simp only [analyze_go] at hk
    exact Or.inl hk
  | cons a rest ih =>
    intro acc evs k hk
    simp only [analyze_go] at hk
    split at hk
    · split at hk
      · rename_i hcond
        rcases ih _ _ k hk with h | h
        · rcases mem_dkeys_dinsert h with heq | h'
          · subst heq; exact Or.inr ⟨hcond.1, hcond.2⟩
          · exact Or.inl h'
        · exact Or.inr h
      · exact ih _ _ k hk
    · exact ih _ _ k hk

theorem analyze_go_evs {w : World} {visited keywords : List String}
    {i cu b : String} :
    ∀ (anchors : List Anchor) (acc : List (String × Bool)) (evs : List Event)
      (e : Event),
      e ∈ (analyze_go w visited keywords i cu b anchors acc evs).2 →
      e ∈ evs ∨
        ∃ u, e = Event.classifyFollow u ∧ startswith u b = true ∧ u ∉ visited := by
  intro anchors
  induction anchors with
  | nil =>
    intro acc evs e he
    simp only [analyze_go] at he
    exact Or.inl he
  | cons a rest ih =>
    intro acc evs e he
    simp only [analyze_go] at he
    split at he
    · split at he
      · rename_i hcond
        rcases ih _ _ e he with h | h
        · rcases List.mem_append.mp h with h' | h'
          · exact Or.inl h'
          · refine Or.inr ⟨w.urljoin cu a.href, List.mem_singleton.mp h', ?_, ?_⟩
            · exact hcond.1
            · exact hcond.2
        · exact Or.inr h
      · exact ih _ _ e he
    · exact ih _ _ e he

theorem analyze_go_evs_mono {w : World} {visited keywords : List String}
    {i cu b : String} :
    ∀ (anchors : List Anchor) (acc : List (String × Bool)) (evs : List Event),
      ∃ t, (analyze_go w visited keywords i cu b anchors acc evs).2 = evs ++ t := by
  intro anchors
  induction anchors with
  | nil =>
    intro acc evs
    exact ⟨[], by simp [analyze_go]⟩
  | cons a rest ih =>
    intro acc evs
    simp only [analyze_go]
    split
    · split
      · rcases ih (dinsert acc (w.urljoin cu a.href)
          (w.shouldFollow a.linkText (w.urljoin cu a.href) i keywords
            (a.parentText.take 200)))
          (evs ++ [Event.classifyFollow (w.urljoin cu a.href)]) with ⟨t, ht⟩
        exact ⟨[Event.classifyFollow (w.urljoin cu a.href)] ++ t, by
          rw [ht, List.append_assoc]⟩
      · exact ih _ _
    · exact ih _ _

theorem analyze_go_keys_events {w : World} {visited keywords : List String}
    {i cu b : String} :
    ∀ (anchors : List Anchor) (acc : List (String × Bool)) (evs : List Event),
      (∀ k ∈ dkeys acc, Event.classifyFollow k ∈ evs) →
      ∀ k ∈ dkeys (analyze_go w visited keywords i cu b anchors acc evs).1,
        Event.classifyFollow k ∈
          (analyze_go w visited keywords i cu b anchors acc evs).2 := by
  intro anchors
  induction anchors with
  | nil =>
    intro acc evs hacc k hk
    simp only [analyze_go] at hk ⊢
    exact hacc k hk
  | cons a rest ih =>
    intro acc evs hacc k hk
    simp only [analyze_go] at hk ⊢
    by_cases h1 : a.href ≠ ""
    · rw [if_pos h1] at hk ⊢
      by_cases h2 : startswith (w.urljoin cu a.href) b = true ∧
          w.urljoin cu a.href ∉ visited
      · rw [if_pos h2] at hk ⊢
        refine ih _ _ ?_ k hk
        intro k' hk'
        rcases mem_dkeys_dinsert hk' with heq | h'
        · subst heq
          exact List.mem_append_right _ (List.mem_singleton.mpr rfl)
        · exact List.mem_append_left _ (hacc k' h')
      · rw [if_neg h2] at hk ⊢
        exact ih _ _ hacc k hk
    · rw [if_neg h1] at hk ⊢
      exact ih _ _ hacc k hk
theorem visit_step_none {w : World} {b i : String} {m : Nat}
    {st : CrawlState} {url : String} {depth : Nat}
    (h : w.loadPage url = none) :
    visit_step w b i m st url depth =
      (let st3 := ensure_keywords w i
        (ensure_depth_key (mark_visited st url depth) depth)
       ({ st3 with trace := st3.trace ++ [Event.loadPage url] }, [])) := by
  unfold visit_step
  rw [h]

/-- `visit_step` unfolded at a successful page load. -/
theorem visit_step_some {w : World} {b i : String} {m : Nat}
    {st : CrawlState} {url : String} {depth : Nat} {pg : Page}
    (h : w.loadPage url = some pg) :
    visit_step w b i m st url depth =
      (let st3 := ensure_keywords w i
        (ensure_depth_key (mark_visited st url depth) depth)
       expand_links w b i m
        (record_relevance w i
          { st3 with trace := st3.trace ++ [Event.loadPage url] } url depth pg)
        url depth pg) := by
  unfold visit_step
  rw [h]

end Rufus

namespace Rufus

/-! ## Composite lemmas about `visit_step` -/

theorem visit_step_visited (w : World) (b i : String) (m : Nat)
    (st : CrawlState) (url : String) (depth : Nat) :
    (visit_step w b i m st url depth).1.visited_urls =
      st.visited_urls ++ [url] := by
  rcases h : w.loadPage url with _ | pg
  · rw [visit_step_none h]
    dsimp only
    rw [(ensure_keywords_fields _ _ _).1, (ensure_depth_key_fields _ _).1]
    rfl
  · rw [visit_step_some h]
    dsimp only
    rcases expand_links_spec w b i m
        (record_relevance w i
          { ensure_keywords w i (ensure_depth_key (mark_visited st url depth) depth) with
            trace := (ensure_keywords w i
              (ensure_depth_key (mark_visited st url depth) depth)).trace ++
              [Event.loadPage url] } url depth pg) url depth pg with
      ⟨_, h1, _⟩ | ⟨_, h1⟩
    · rw [h1]
      show (record_relevance _ _ _ _ _ _).visited_urls = _
      rw [(record_relevance_fields _ _ _ _ _ _).1]
      show (ensure_keywords _ _ _).visited_urls = _
      rw [(ensure_keywords_fields _ _ _).1, (ensure_depth_key_fields _ _).1]
      rfl
    · rw [h1]
      show (record_relevance _ _ _ _ _ _).visited_urls = _
      rw [(record_relevance_fields _ _ _ _ _ _).1]
      show (ensure_keywords _ _ _).visited_urls = _
      rw [(ensure_keywords_fields _ _ _).1, (ensure_depth_key_fields _ _).1]
      rfl

end Rufus

namespace Rufus

/-- The trace grown by one `visit_step`: an `enterVisit` for the current
URL, then only keyword/load/relevance events for this URL plus
classify-follow events for in-domain, unvisited link targets, the latter
only when `depth < max_depth`. -/
theorem visit_step_trace_shape (w : World) (b i : String) (m : Nat)
    (st : CrawlState) (url : String) (depth : Nat) :
    ∃ t, (visit_step w b i m st url depth).1.trace =
        st.trace ++ Event.enterVisit url depth :: t ∧
      ∀ e ∈ t, e = Event.expandKeywords ∨ e = Event.loadPage url ∨
        e = Event.classifyRelevance url ∨
        (depth < m ∧ ∃ u', e = Event.classifyFollow u' ∧
          startswith u' b = true ∧ u' ∉ st.visited_urls ++ [url]) := by
  have hB : (ensure_depth_key (mark_visited st url depth) depth).trace =
      st.trace ++ [Event.enterVisit url depth] := by
    rw [(ensure_depth_key_fields _ _).2.2.2.2]; rfl
  have hBv : (ensure_depth_key (mark_visited st url depth) depth).visited_urls =
      st.visited_urls ++ [url] := by
    rw [(ensure_depth_key_fields _ _).1]; rfl
  obtain ⟨kwext, hCt, hkwext, hCv⟩ :
      ∃ kwext,
        (ensure_keywords w i
          (ensure_depth_key (mark_visited st url depth) depth)).trace =
          (st.trace ++ [Event.enterVisit url depth]) ++ kwext ∧
        (∀ e ∈ kwext, e = Event.expandKeywords) ∧
        (ensure_keywords w i
          (ensure_depth_key (mark_visited st url depth) depth)).visited_urls =
          st.visited_urls ++ [url] := by
    rcases ensure_keywords_spec w i
        (ensure_depth_key (mark_visited st url depth) depth) with
      ⟨_, hC⟩ | ⟨_, hC⟩
    · refine ⟨[Event.expandKeywords], ?_, ?_, ?_⟩
      · rw [hC]; dsimp only; rw [hB]
      · intro e he; exact List.mem_singleton.mp he
      · rw [hC]; dsimp only; exact hBv
    · refine ⟨[], ?_, ?_, ?_⟩
      · rw [hC, List.append_nil]; exact hB
      · intro e he; cases he
      · rw [hC]; exact hBv
  rcases h : w.loadPage url with _ | pg
  · rw [visit_step_none h]
    dsimp only
    refine ⟨kwext ++ [Event.loadPage url], ?_, ?_⟩
    · rw [hCt]; simp [List.append_assoc]
    · intro e he
      rcases List.mem_append.mp he with he' | he'
      · exact Or.inl (hkwext e he')
      · exact Or.inr (Or.inl (List.mem_singleton.mp he'))
  · rw [visit_step_some h]
    dsimp only
    have hEt : (record_relevance w i
        { ensure_keywords w i (ensure_depth_key (mark_visited st url depth) depth) with
          trace := (ensure_keywords w i
            (ensure_depth_key (mark_visited st url depth) depth)).trace ++
            [Event.loadPage url] } url depth pg).trace =
        ((st.trace ++ [Event.enterVisit url depth]) ++ kwext) ++
          [Event.loadPage url] ++ [Event.classifyRelevance url] := by
      rw [(record_relevance_fields _ _ _ _ _ _).2.2]
      dsimp only
      rw [hCt]
    have hEv : (record_relevance w i
        { ensure_keywords w i (ensure_depth_key (mark_visited st url depth) depth) with
          trace := (ensure_keywords w i
            (ensure_depth_key (mark_visited st url depth) depth)).trace ++
            [Event.loadPage url] } url depth pg).visited_urls =
        st.visited_urls ++ [url] := by
      rw [(record_relevance_fields _ _ _ _ _ _).1]
      dsimp only
      exact hCv
    rcases expand_links_spec w b i m
        (record_relevance w i
          { ensure_keywords w i (ensure_depth_key (mark_visited st url depth) depth) with
            trace := (ensure_keywords w i
              (ensure_depth_key (mark_visited st url depth) depth)).trace ++
              [Event.loadPage url] } url depth pg) url depth pg with
      ⟨hdm, h1, _⟩ | ⟨hdm, h1⟩
    · rw [h1]
      dsimp only
      refine ⟨kwext ++ [Event.loadPage url] ++ [Event.classifyRelevance url] ++
        (analyze_page_links w
          (record_relevance w i
            { ensure_keywords w i (ensure_depth_key (mark_visited st url depth) depth) with
              trace := (ensure_keywords w i
                (ensure_depth_key (mark_visited st url depth) depth)).trace ++
                [Event.loadPage url] } url depth pg).visited_urls
          (record_relevance w i
            { ensure_keywords w i (ensure_depth_key (mark_visited st url depth) depth) with
              trace := (ensure_keywords w i
                (ensure_depth_key (mark_visited st url depth) depth)).trace ++
                [Event.loadPage url] } url depth pg).keywords
          i url b pg.anchors).2, ?_, ?_⟩
      · rw [hEt]; simp [List.append_assoc]
      · intro e he
        rcases List.mem_append.mp he with he' | he'
        · rcases List.mem_append.mp he' with he'' | he''
          · rcases List.mem_append.mp he'' with h3 | h3
            · exact Or.inl (hkwext e h3)
            · exact Or.inr (Or.inl (List.mem_singleton.mp h3))
          · exact Or.inr (Or.inr (Or.inl (List.mem_singleton.mp he'')))
        · rcases analyze_go_evs _ _ _ e he' with h3 | ⟨u', he4, hs, hv⟩
          · cases h3
          · refine Or.inr (Or.inr (Or.inr ⟨hdm, u', he4, hs, ?_⟩))
            rw [hEv] at hv
            exact hv
    · rw [h1]
      dsimp only
      refine ⟨kwext ++ [Event.loadPage url] ++ [Event.classifyRelevance url], ?_, ?_⟩
      · rw [hEt]; simp [List.append_assoc]
      · intro e he
        rcases List.mem_append.mp he with he' | he'
        · rcases List.mem_append.mp he' with he'' | he''
          · exact Or.inl (hkwext e he'')
          · exact Or.inr (Or.inl (List.mem_singleton.mp he''))
        · exact Or.inr (Or.inr (Or.inl (List.mem_singleton.mp he')))

end Rufus

namespace Rufus

/-- The state just before `page.goto` (rufus.py lines 210-218 applied). -/
def pre_load_state (w : World) (i : String) (st : CrawlState) (url : String)
    (depth : Nat) : CrawlState :=
  ensure_keywords w i (ensure_depth_key (mark_visited st url depth) depth)

/-- The state after the relevance recording (rufus.py lines 210-241
applied), for a successfully loaded page `pg`. -/
def mid_state (w : World) (i : String) (st : CrawlState) (url : String)
    (depth : Nat) (pg : Page) : CrawlState :=
  record_relevance w i
    { pre_load_state w i st url depth with
      trace := (pre_load_state w i st url depth).trace ++ [Event.loadPage url] }
    url depth pg

theorem visit_step_none' {w : World} {b i : String} {m : Nat}
    {st : CrawlState} {url : String} {depth : Nat}
    (h : w.loadPage url = none) :
    visit_step w b i m st url depth =
      ({ pre_load_state w i st url depth with
         trace := (pre_load_state w i st url depth).trace ++
           [Event.loadPage url] }, []) := by
  rw [visit_step_none h]
  rfl

theorem visit_step_some' {w : World} {b i : String} {m : Nat}
    {st : CrawlState} {url : String} {depth : Nat} {pg : Page}
    (h : w.loadPage url = some pg) :
    visit_step w b i m st url depth =
      expand_links w b i m (mid_state w i st url depth pg) url depth pg := by
  rw [visit_step_some h]
  rfl

theorem pre_load_state_visited (w : World) (i : String) (st : CrawlState)
    (url : String) (depth : Nat) :
    (pre_load_state w i st url depth).visited_urls =
      st.visited_urls ++ [url] := by
  unfold pre_load_state
  rw [(ensure_keywords_fields _ _ _).1, (ensure_depth_key_fields _ _).1]
  rfl

theorem pre_load_state_relevance (w : World) (i : String) (st : CrawlState)
    (url : String) (depth : Nat) :
    (pre_load_state w i st url depth).page_relevance = st.page_relevance := by
  unfold pre_load_state
  rw [(ensure_keywords_fields _ _ _).2.1, (ensure_depth_key_fields _ _).2.1]
  rfl

theorem pre_load_state_page_data (w : World) (i : String) (st : CrawlState)
    (url : String) (depth : Nat) :
    (pre_load_state w i st url depth).page_data = st.page_data := by
  unfold pre_load_state
  rw [(ensure_keywords_fields _ _ _).2.2.1, (ensure_depth_key_fields _ _).2.2.1]
  rfl

theorem pre_load_state_dd (w : World) (i : String) (st : CrawlState)
    (url : String) (depth : Nat) :
    (pre_load_state w i st url depth).depth_data =
      (ensure_depth_key (mark_visited st url depth) depth).depth_data := by
  unfold pre_load_state
  rw [(ensure_keywords_fields _ _ _).2.2.2]

theorem mid_state_visited (w : World) (i : String) (st : CrawlState)
    (url : String) (depth : Nat) (pg : Page) :
    (mid_state w i st url depth pg).visited_urls = st.visited_urls ++ [url] := by
  unfold mid_state
  rw [(record_relevance_fields _ _ _ _ _ _).1]
  dsimp only
  exact pre_load_state_visited w i st url depth

end Rufus

namespace Rufus

theorem expand_links_fields (w : World) (b i : String) (m : Nat)
    (st : CrawlState) (url : String) (depth : Nat) (pg : Page) :
    (expand_links w b i m st url depth pg).1.page_relevance = st.page_relevance ∧
    (expand_links w b i m st url depth pg).1.page_data = st.page_data ∧
    (expand_links w b i m st url depth pg).1.depth_data = st.depth_data ∧
    (expand_links w b i m st url depth pg).1.visited_urls = st.visited_urls ∧
    (expand_links w b i m st url depth pg).1.keywords = st.keywords := by
  unfold expand_links
  split <;> simp

/-- How one `visit_step` transforms the three result stores: the depth
index first (possibly) gains an empty list at the current depth, then
either nothing more happens (load failed), or the relevance verdict is
recorded as `false`, or it is recorded as `true` together with a page
record and a depth-index append. -/
theorem visit_step_data_spec (w : World) (b i : String) (m : Nat)
    (st : CrawlState) (url : String) (depth : Nat) :
    ∃ dd1, (dd1 = st.depth_data ∨ dd1 = st.depth_data ++ [(depth, [])]) ∧
      ((w.loadPage url = none ∧
        (visit_step w b i m st url depth).1.page_relevance = st.page_relevance ∧
        (visit_step w b i m st url depth).1.page_data = st.page_data ∧
        (visit_step w b i m st url depth).1.depth_data = dd1) ∨
       ((visit_step w b i m st url depth).1.page_relevance =
          dinsert st.page_relevance url false ∧
        (visit_step w b i m st url depth).1.page_data = st.page_data ∧
        (visit_step w b i m st url depth).1.depth_data = dd1) ∨
       ((visit_step w b i m st url depth).1.page_relevance =
          dinsert st.page_relevance url true ∧
        (∃ rec, (visit_step w b i m st url depth).1.page_data =
          dinsert st.page_data url rec) ∧
        (visit_step w b i m st url depth).1.depth_data = dappend dd1 depth url)) := by
  have hmdd : (mark_visited st url depth).depth_data = st.depth_data := rfl
  refine ⟨(ensure_depth_key (mark_visited st url depth) depth).depth_data, ?_, ?_⟩
  · rcases ensure_depth_key_dd_cases (mark_visited st url depth) depth with hc | hc
    · left; rw [hc, hmdd]
    · right; rw [hc, hmdd]
  · rcases h : w.loadPage url with _ | pg
    · refine Or.inl ⟨rfl, ?_, ?_, ?_⟩
      · rw [visit_step_none' h]
        exact pre_load_state_relevance w i st url depth
      · rw [visit_step_none' h]
        exact pre_load_state_page_data w i st url depth
      · rw [visit_step_none' h]
        exact pre_load_state_dd w i st url depth
    · rw [visit_step_some' h]
      obtain ⟨hpr, hpd, hdd, _, _⟩ := expand_links_fields w b i m
        (mid_state w i st url depth pg) url depth pg
      have hDpr : ({ pre_load_state w i st url depth with
          trace := (pre_load_state w i st url depth).trace ++
            [Event.loadPage url] } : CrawlState).page_relevance =
          st.page_relevance := pre_load_state_relevance w i st url depth
      have hDpd : ({ pre_load_state w i st url depth with
          trace := (pre_load_state w i st url depth).trace ++
            [Event.loadPage url] } : CrawlState).page_data =
          st.page_data := pre_load_state_page_data w i st url depth
      have hDdd : ({ pre_load_state w i st url depth with
          trace := (pre_load_state w i st url depth).trace ++
            [Event.loadPage url] } : CrawlState).depth_data =
          (ensure_depth_key (mark_visited st url depth) depth).depth_data :=
        pre_load_state_dd w i st url depth
      rcases record_relevance_spec w i
          { pre_load_state w i st url depth with
            trace := (pre_load_state w i st url depth).trace ++
              [Event.loadPage url] } url depth pg with
        ⟨_, h1, h2, h3⟩ | ⟨_, h1, h2, h3⟩
      · refine Or.inr (Or.inr ⟨?_, ?_, ?_⟩)
        · rw [hpr]
          show (mid_state w i st url depth pg).page_relevance = _
          rw [mid_state, h1, hDpr]
        · refine ⟨PageRecord.mk url depth pg.body pg.title
            (pre_load_state w i st url depth).keywords, ?_⟩
          rw [hpd]
          show (mid_state w i st url depth pg).page_data = _
          rw [mid_state, h2, hDpd]
        · rw [hdd]
          show (mid_state w i st url depth pg).depth_data = _
          rw [mid_state, h3, hDdd]
      · refine Or.inr (Or.inl ⟨?_, ?_, ?_⟩)
        · rw [hpr]
          show (mid_state w i st url depth pg).page_relevance = _
          rw [mid_state, h1, hDpr]
        · rw [hpd]
          show (mid_state w i st url depth pg).page_data = _
          rw [mid_state, h2, hDpd]
        · rw [hdd]
          show (mid_state w i st url depth pg).depth_data = _
          rw [mid_state, h3, hDdd]

end Rufus

namespace Rufus

/-- Every entry of the `link_relevance` dict returned by `visit_step` is
in-domain (its URL extends the base prefix) and was unvisited at analysis
time. -/
theorem visit_step_links (w : World) (b i : String) (m : Nat)
    (st : CrawlState) (url : String) (depth : Nat) :
    ∀ p ∈ (visit_step w b i m st url depth).2,
      startswith p.1 b = true ∧ p.1 ∉ st.visited_urls ++ [url] := by
  intro p hp
  rcases h : w.loadPage url with _ | pg
  · rw [visit_step_none' h] at hp
    cases hp
  · rw [visit_step_some' h] at hp
    rcases expand_links_spec w b i m (mid_state w i st url depth pg)
        url depth pg with ⟨_, _, h2⟩ | ⟨_, h1⟩
    · rw [h2] at hp
      have hk : p.1 ∈ dkeys (analyze_page_links w
          (mid_state w i st url depth pg).visited_urls
          (mid_state w i st url depth pg).keywords i url b pg.anchors).1 :=
        List.mem_map.mpr ⟨p, hp, rfl⟩
      rcases analyze_go_keys _ _ _ p.1 hk with h3 | h3
      · cases h3
      · rw [mid_state_visited] at h3
        exact h3
    · rw [h1] at hp
      cases hp

/-- Every URL in the returned `link_relevance` dict had its
classify-follow call recorded in the trace produced by this `visit_step`
(the classification of all links precedes any recursion). -/
theorem visit_step_cf (w : World) (b i : String) (m : Nat)
    (st : CrawlState) (url : String) (depth : Nat) :
    ∀ p ∈ (visit_step w b i m st url depth).2,
      Event.classifyFollow p.1 ∈ (visit_step w b i m st url depth).1.trace := by
  intro p hp
  rcases h : w.loadPage url with _ | pg
  · rw [visit_step_none' h] at hp
    cases hp
  · rw [visit_step_some' h] at hp ⊢
    rcases expand_links_spec w b i m (mid_state w i st url depth pg)
        url depth pg with ⟨_, h1, h2⟩ | ⟨_, h1⟩
    · rw [h2] at hp
      rw [h1]
      have hk : p.1 ∈ dkeys (analyze_page_links w
          (mid_state w i st url depth pg).visited_urls
          (mid_state w i st url depth pg).keywords i url b pg.anchors).1 :=
        List.mem_map.mpr ⟨p, hp, rfl⟩
      have hcf := analyze_go_keys_events _ _ _ (fun k hk' => absurd hk' (by simp [dkeys]))
        p.1 hk
      exact List.mem_append_right _ hcf
    · rw [h1] at hp
      cases hp

end Rufus

namespace Rufus

theorem kwCount_append (a c : List Event) :
    kwCount (a ++ c) = kwCount a + kwCount c :=
  List.countP_append _ _ _

/-- The current depth is keyed in the depth index after `visit_step`, and
previously present depth keys survive. -/
theorem visit_step_dd_keys (w : World) (b i : String) (m : Nat)
    (st : CrawlState) (url : String) (depth : Nat) :
    depth ∈ dkeys (visit_step w b i m st url depth).1.depth_data ∧
    ∀ x ∈ dkeys st.depth_data,
      x ∈ dkeys (visit_step w b i m st url depth).1.depth_data := by
  have hpre : (pre_load_state w i st url depth).depth_data =
      (ensure_depth_key (mark_visited st url depth) depth).depth_data :=
    pre_load_state_dd w i st url depth
  have hkey : depth ∈ dkeys (pre_load_state w i st url depth).depth_data := by
    rw [hpre]
    exact ensure_depth_key_key_mem (mark_visited st url depth) depth
  have hmono : ∀ x ∈ dkeys st.depth_data,
      x ∈ dkeys (pre_load_state w i st url depth).depth_data := by
    intro x hx
    rw [hpre]
    rcases ensure_depth_key_dd_cases (mark_visited st url depth) depth with hc | hc
    · rw [hc]; exact hx
    · rw [hc]
      unfold dkeys
      rw [List.map_append]
      exact List.mem_append_left _ hx
  rcases h : w.loadPage url with _ | pg
  · rw [visit_step_none' h]
    exact ⟨hkey, hmono⟩
  · rw [visit_step_some' h]
    have hdd := (expand_links_fields w b i m (mid_state w i st url depth pg)
      url depth pg).2.2.1
    rw [hdd]
    rcases record_relevance_spec w i
        { pre_load_state w i st url depth with
          trace := (pre_load_state w i st url depth).trace ++
            [Event.loadPage url] } url depth pg with
      ⟨_, _, _, h3⟩ | ⟨_, _, _, h3⟩
    · have : (mid_state w i st url depth pg).depth_data =
          dappend (pre_load_state w i st url depth).depth_data depth url := by
        rw [mid_state, h3]
      rw [this, dkeys_dappend]
      exact ⟨hkey, hmono⟩
    · have : (mid_state w i st url depth pg).depth_data =
          (pre_load_state w i st url depth).depth_data := by
        rw [mid_state, h3]
      rw [this]
      exact ⟨hkey, hmono⟩

/-- Keyword handling of one `visit_step`: if the run's keyword cache is
non-empty it is left alone and no expansion call happens; if it is empty,
exactly one expansion call happens and the cache becomes the oracle's
response. -/
theorem visit_step_kw_spec (w : World) (b i : String) (m : Nat)
    (st : CrawlState) (url : String) (depth : Nat) :
    (st.keywords ≠ [] ∧
      (visit_step w b i m st url depth).1.keywords = st.keywords ∧
      kwCount (visit_step w b i m st url depth).1.trace = kwCount st.trace) ∨
    (st.keywords = [] ∧
      (visit_step w b i m st url depth).1.keywords = w.expandKeywords i ∧
      kwCount (visit_step w b i m st url depth).1.trace =
        kwCount st.trace + 1) := by
  have hBt : (ensure_depth_key (mark_visited st url depth) depth).trace =
      st.trace ++ [Event.enterVisit url depth] := by
    rw [(ensure_depth_key_fields _ _).2.2.2.2]; rfl
  have hBk : (ensure_depth_key (mark_visited st url depth) depth).keywords =
      st.keywords := by
    rw [(ensure_depth_key_fields _ _).2.2.2.1]; rfl
  -- keyword cache and count after `pre_load_state`
  have hpre : ((st.keywords ≠ [] ∧
      (pre_load_state w i st url depth).keywords = st.keywords ∧
      kwCount (pre_load_state w i st url depth).trace = kwCount st.trace) ∨
    (st.keywords = [] ∧
      (pre_load_state w i st url depth).keywords = w.expandKeywords i ∧
      kwCount (pre_load_state w i st url depth).trace =
        kwCount st.trace + 1)) := by
    unfold pre_load_state
    rcases ensure_keywords_spec w i
        (ensure_depth_key (mark_visited st url depth) depth) with
      ⟨hk, hC⟩ | ⟨hk, hC⟩
    · refine Or.inr ⟨by rw [← hBk]; exact hk, ?_, ?_⟩
      · rw [hC]
      · rw [hC]
        show kwCount ((ensure_depth_key (mark_visited st url depth) depth).trace
          ++ [Event.expandKeywords]) = _
        rw [kwCount_append, hBt, kwCount_append]
        simp [kwCount, isKwEvent, List.countP_cons]
    · refine Or.inl ⟨by rw [← hBk]; exact hk, ?_, ?_⟩
      · rw [hC]; exact hBk
      · rw [hC, hBt, kwCount_append]
        simp [kwCount, isKwEvent, List.countP_cons]
  -- the rest of `visit_step` adds no expansion call and keeps the cache
  have hrest : (visit_step w b i m st url depth).1.keywords =
      (pre_load_state w i st url depth).keywords ∧
    kwCount (visit_step w b i m st url depth).1.trace =
      kwCount (pre_load_state w i st url depth).trace := by
    rcases h : w.loadPage url with _ | pg
    · rw [visit_step_none' h]
      refine ⟨rfl, ?_⟩
      show kwCount ((pre_load_state w i st url depth).trace ++
        [Event.loadPage url]) = _
      rw [kwCount_append]
      simp [kwCount, isKwEvent, List.countP_cons]
    · rw [visit_step_some' h]
      have hkw := (expand_links_fields w b i m (mid_state w i st url depth pg)
        url depth pg).2.2.2.2
      have hmidk : (mid_state w i st url depth pg).keywords =
          (pre_load_state w i st url depth).keywords := by
        rw [mid_state, (record_relevance_fields _ _ _ _ _ _).2.1]
      have hmidt : (mid_state w i st url depth pg).trace =
          ((pre_load_state w i st url depth).trace ++ [Event.loadPage url]) ++
            [Event.classifyRelevance url] := by
        rw [mid_state, (record_relevance_fields _ _ _ _ _ _).2.2]
      constructor
      · rw [hkw, hmidk]
      · rcases expand_links_spec w b i m (mid_state w i st url depth pg)
            url depth pg with ⟨_, h1, _⟩ | ⟨_, h1⟩
        · rw [h1]
          show kwCount ((mid_state w i st url depth pg).trace ++
            (analyze_page_links w (mid_state w i st url depth pg).visited_urls
              (mid_state w i st url depth pg).keywords i url b pg.anchors).2) = _
          rw [kwCount_append, hmidt, kwCount_append, kwCount_append]
          have hz : kwCount (analyze_page_links w
              (mid_state w i st url depth pg).visited_urls
              (mid_state w i st url depth pg).keywords i url b pg.anchors).2 = 0 := by
            refine List.countP_eq_zero.mpr ?_
            intro e he
            rcases analyze_go_evs _ _ _ e he with h3 | ⟨u', he4, _, _⟩
            · cases h3
            · rw [he4]
              simp [isKwEvent]
          rw [hz]
          simp [kwCount, isKwEvent, List.countP_cons]
        · rw [h1]
          rw [hmidt, kwCount_append, kwCount_append]
          simp [kwCount, isKwEvent, List.countP_cons]
  rcases hpre with ⟨hk, h1, h2⟩ | ⟨hk, h1, h2⟩
  · exact Or.inl ⟨hk, by rw [hrest.1, h1], by rw [hrest.2, h2]⟩
  · exact Or.inr ⟨hk, by rw [hrest.1, h1], by rw [hrest.2, h2]⟩

end Rufus

namespace Rufus

theorem visit_step_trace_mono (w : World) (b i : String) (m : Nat)
    (st : CrawlState) (url : String) (depth : Nat) :
    ∃ t, (visit_step w b i m st url depth).1.trace = st.trace ++ t := by
  obtain ⟨t, ht, _⟩ := visit_step_trace_shape w b i m st url depth
  exact ⟨Event.enterVisit url depth :: t, ht⟩

theorem crawl_page_trace_mono (w : World) (b i : String) (m : Nat)
    (st : CrawlState) (url : String) (depth : Nat) :
    ∃ t, (crawl_page w b i m st url depth).trace = st.trace ++ t := by
  refine crawl_page_pres (P := fun s => ∃ t, s.trace = st.trace ++ t)
    (Q := fun _ => True) ?_ (fun _ _ _ _ _ _ _ _ _ => trivial)
    st url depth trivial ⟨[], by simp⟩
  intro s u d _ _ _ hPs
  obtain ⟨t, htr⟩ := hPs
  obtain ⟨t2, ht2⟩ := visit_step_trace_mono w b i m s u d
  exact ⟨t ++ t2, by rw [ht2, htr, List.append_assoc]⟩

theorem crawl_page_visited_mono (w : World) (b i : String) (m : Nat)
    (st : CrawlState) (url : String) (depth : Nat) :
    ∃ t, (crawl_page w b i m st url depth).visited_urls =
      st.visited_urls ++ t := by
  refine crawl_page_pres (P := fun s => ∃ t, s.visited_urls = st.visited_urls ++ t)
    (Q := fun _ => True) ?_ (fun _ _ _ _ _ _ _ _ _ => trivial)
    st url depth trivial ⟨[], by simp⟩
  intro s u d _ _ _ hPs
  obtain ⟨t, htr⟩ := hPs
  refine ⟨t ++ [u], ?_⟩
  rw [visit_step_visited, htr, List.append_assoc]

/-- At `depth = max_depth`, `visit_step` performs no link analysis and
returns an empty `link_relevance` dict (rufus.py line 244). -/
theorem visit_step_at_max (w : World) (b i : String) (m : Nat)
    (st : CrawlState) (url : String) :
    (visit_step w b i m st url m).2 = [] := by
  rcases h : w.loadPage url with _ | pg
  · rw [visit_step_none' h]
  · rw [visit_step_some' h]
    rcases expand_links_spec w b i m (mid_state w i st url m pg)
        url m pg with ⟨hdm, _, _⟩ | ⟨_, h1⟩
    · exact absurd hdm (lt_irrefl m)
    · rw [h1]

end Rufus

namespace Rufus

/-- C8: each classification-gateway operation is fail-closed: when the
oracle call raises, `get_semantic_keywords` returns the empty list and
`is_content_relevant` / `should_follow_link` return `false`; no error
propagates out of these operations. -/
theorem gateway_fail_closed (e : String) :
    get_semantic_keywords (Except.error e) = [] ∧
    is_content_relevant (Except.error e) = false ∧
    should_follow_link (Except.error e) = false :=
  ⟨rfl, rfl, rfl⟩

/-- C6: a crawl with `max_depth = 0` visits exactly the (normalized) base
URL and performs no link classification; in general a page processed at
`depth = max_depth` triggers no link expansion, whatever its relevance. -/
theorem crawl_maxdepth_zero (w : World) (i burl : String) :
    (crawl w true burl i 0).1.visited_urls = [normalize_base_url burl] ∧
    (∀ u, Event.classifyFollow u ∉ (crawl w true burl i 0).1.trace) ∧
    (∀ (b : String) (m : Nat) (st : CrawlState) (url : String),
      (visit_step w b i m st url m).2 = []) := by
  have hfin : (crawl w true burl i 0).1 =
      (visit_step w (normalize_base_url burl) i 0 initState
        (normalize_base_url burl) 0).1 := by
    show crawl_page w (normalize_base_url burl) i 0 initState
      (normalize_base_url burl) 0 = _
    rw [crawl_page_eq]
    rw [if_neg (by simp [initState])]
    rw [visit_step_at_max]
    rfl
  refine ⟨?_, ?_, fun b m st url => visit_step_at_max w b i m st url⟩
  · rw [hfin, visit_step_visited]
    rfl
  · intro u hmem
    rw [hfin] at hmem
    obtain ⟨t, ht, hprop⟩ := visit_step_trace_shape w (normalize_base_url burl)
      i 0 initState (normalize_base_url burl) 0
    rw [ht] at hmem
    have h0 : initState.trace = [] := rfl
    rw [h0, List.nil_append] at hmem
    rcases List.mem_cons.mp hmem with h1 | h1
    · cases h1
    · rcases hprop _ h1 with h2 | h2 | h2 | ⟨h2, _⟩
      · cases h2
      · cases h2
      · cases h2
      · exact absurd h2 (lt_irrefl 0)

end Rufus

namespace Rufus

/-- C2: the traversal is a total function of the link graph (the
recursion is well-founded on the remaining depth budget), no URL is ever
re-entered — the visited list stays duplicate-free on every run, cyclic
graphs included — and every visit happens at a depth bounded by
`max_depth`. -/
theorem crawl_visits_once (w : World) (i burl : String) (m : Nat) :
    (crawl w true burl i m).1.visited_urls.Nodup ∧
    (∀ u d, Event.enterVisit u d ∈ (crawl w true burl i m).1.trace →
      d ≤ m) := by
  have hstep : ∀ (s : CrawlState) (url : String) (depth : Nat), depth ≤ m →
      url ∉ s.visited_urls → True →
      (s.visited_urls.Nodup ∧
        ∀ u d, Event.enterVisit u d ∈ s.trace → d ≤ m) →
      ((visit_step w (normalize_base_url burl) i m s url depth).1.visited_urls.Nodup ∧
        ∀ u d, Event.enterVisit u d ∈
          (visit_step w (normalize_base_url burl) i m s url depth).1.trace →
          d ≤ m) := by
    intro s url depth hdm hnv _ hPs
    constructor
    · rw [visit_step_visited]
      rw [List.nodup_append]
      refine ⟨hPs.1, List.nodup_singleton url, ?_⟩
      intro x hx hx'
      rw [List.mem_singleton] at hx'
      subst hx'
      exact hnv hx
    · intro u d hmem
      obtain ⟨t, ht, hprop⟩ := visit_step_trace_shape w (normalize_base_url burl)
        i m s url depth
      rw [ht] at hmem
      rcases List.mem_append.mp hmem with h1 | h1
      · exact hPs.2 u d h1
      · rcases List.mem_cons.mp h1 with h2 | h2
        · cases h2
          exact hdm
        · rcases hprop _ h2 with h3 | h3 | h3 | ⟨_, _, h3, _⟩
          · cases h3
          · cases h3
          · cases h3
          · cases h3
  exact crawl_page_pres
    (P := fun s => s.visited_urls.Nodup ∧
      ∀ u d, Event.enterVisit u d ∈ s.trace → d ≤ m)
    (Q := fun _ => True) hstep (fun _ _ _ _ _ _ _ _ _ => trivial)
    initState (normalize_base_url burl) 0 trivial
    ⟨List.nodup_nil, fun _ _ hc => absurd hc (List.not_mem_nil _)⟩

/-- C7: during a whole run, only URLs extending the normalized base-URL
prefix are ever handed to the link-follow classifier, and every URL in
the visited set is either the (normalized) base URL itself or extends
that prefix. -/
theorem crawl_domain_confinement (w : World) (i burl : String) (m : Nat) :
    (∀ u, Event.classifyFollow u ∈ (crawl w true burl i m).1.trace →
      startswith u (normalize_base_url burl) = true) ∧
    (∀ u ∈ (crawl w true burl i m).1.visited_urls,
      u = normalize_base_url burl ∨
        startswith u (normalize_base_url burl) = true) := by
  have hstep : ∀ (s : CrawlState) (url : String) (depth : Nat), depth ≤ m →
      url ∉ s.visited_urls →
      (url = normalize_base_url burl ∨
        startswith url (normalize_base_url burl) = true) →
      ((∀ u, Event.classifyFollow u ∈ s.trace →
          startswith u (normalize_base_url burl) = true) ∧
        (∀ u ∈ s.visited_urls, u = normalize_base_url burl ∨
          startswith u (normalize_base_url burl) = true)) →
      ((∀ u, Event.classifyFollow u ∈
          (visit_step w (normalize_base_url burl) i m s url depth).1.trace →
          startswith u (normalize_base_url burl) = true) ∧
        (∀ u ∈ (visit_step w (normalize_base_url burl) i m s url depth).1.visited_urls,
          u = normalize_base_url burl ∨
            startswith u (normalize_base_url burl) = true)) := by
    intro s url depth _ _ hQ hPs
    constructor
    · intro u hmem
      obtain ⟨t, ht, hprop⟩ := visit_step_trace_shape w (normalize_base_url burl)
        i m s url depth
      rw [ht] at hmem
      rcases List.mem_append.mp hmem with h1 | h1
      · exact hPs.1 u h1
      · rcases List.mem_cons.mp h1 with h2 | h2
        · cases h2
        · rcases hprop _ h2 with h3 | h3 | h3 | ⟨_, u', h3, hs, _⟩
          · cases h3
          · cases h3
          · cases h3
          · cases h3
            exact hs
    · intro u hmem
      rw [visit_step_visited] at hmem
      rcases List.mem_append.mp hmem with h1 | h1
      · exact hPs.2 u h1
      · rw [List.mem_singleton] at h1
        subst h1
        exact hQ
  exact crawl_page_pres
    (P := fun s =>
      (∀ u, Event.classifyFollow u ∈ s.trace →
        startswith u (normalize_base_url burl) = true) ∧
      (∀ u ∈ s.visited_urls, u = normalize_base_url burl ∨
        startswith u (normalize_base_url burl) = true))
    (Q := fun u => u = normalize_base_url burl ∨
      startswith u (normalize_base_url burl) = true)
    hstep
    (fun s url depth _ _ _ _ p hp =>
      Or.inr (visit_step_links w (normalize_base_url burl) i m s url depth p hp).1)
    initState (normalize_base_url burl) 0 (Or.inl rfl)
    ⟨fun _ hc => absurd hc (List.not_mem_nil _),
     fun _ hc => absurd hc (List.not_mem_nil _)⟩

end Rufus

namespace Rufus

/-- C1 (amended): on every run the relevance-map domain is contained in
the visited set, and every visited URL whose page load does not raise
has a relevance entry — so the two coincide exactly when every visited
page loads successfully, while a URL whose load raises is visited but
absent from the relevance map. -/
theorem relevance_domain (w : World) (b i : String) (m : Nat)
    (st : CrawlState) (url : String) (depth : Nat)
    (hsub : ∀ u ∈ dkeys st.page_relevance, u ∈ st.visited_urls)
    (hload : ∀ u ∈ st.visited_urls, (w.loadPage u).isSome = true →
      u ∈ dkeys st.page_relevance) :
    (∀ u ∈ dkeys (crawl_page w b i m st url depth).page_relevance,
      u ∈ (crawl_page w b i m st url depth).visited_urls) ∧
    (∀ u ∈ (crawl_page w b i m st url depth).visited_urls,
      (w.loadPage u).isSome = true →
      u ∈ dkeys (crawl_page w b i m st url depth).page_relevance) := by
  have hstep : ∀ (s : CrawlState) (u₀ : String) (d₀ : Nat), d₀ ≤ m →
      u₀ ∉ s.visited_urls → True →
      ((∀ u ∈ dkeys s.page_relevance, u ∈ s.visited_urls) ∧
        (∀ u ∈ s.visited_urls, (w.loadPage u).isSome = true →
          u ∈ dkeys s.page_relevance)) →
      ((∀ u ∈ dkeys (visit_step w b i m s u₀ d₀).1.page_relevance,
          u ∈ (visit_step w b i m s u₀ d₀).1.visited_urls) ∧
        (∀ u ∈ (visit_step w b i m s u₀ d₀).1.visited_urls,
          (w.loadPage u).isSome = true →
          u ∈ dkeys (visit_step w b i m s u₀ d₀).1.page_relevance)) := by
    intro s u₀ d₀ _ _ _ hPs
    obtain ⟨dd1, _, hcases⟩ := visit_step_data_spec w b i m s u₀ d₀
    have hvis := visit_step_visited w b i m s u₀ d₀
    rcases hcases with ⟨hnone, hpr, _, _⟩ | ⟨hpr, _, _⟩ | ⟨hpr, _, _⟩
    · constructor
      · intro u hu
        rw [hpr] at hu
        rw [hvis]
        exact List.mem_append_left _ (hPs.1 u hu)
      · intro u hu hl
        rw [hvis] at hu
        rw [hpr]
        rcases List.mem_append.mp hu with h1 | h1
        · exact hPs.2 u h1 hl
        · rw [List.mem_singleton] at h1
          subst h1
          rw [hnone] at hl
          cases hl
    · constructor
      · intro u hu
        rw [hpr] at hu
        rw [hvis]
        rcases mem_dkeys_dinsert hu with h1 | h1
        · subst h1
          exact List.mem_append_right _ (List.mem_singleton.mpr rfl)
        · exact List.mem_append_left _ (hPs.1 u h1)
      · intro u hu hl
        rw [hvis] at hu
        rw [hpr]
        rcases List.mem_append.mp hu with h1 | h1
        · exact mem_dkeys_dinsert_of_mem (hPs.2 u h1 hl)
        · rw [List.mem_singleton] at h1
          subst h1
          exact mem_dkeys_dinsert_self _ _ _
    · constructor
      · intro u hu
        rw [hpr] at hu
        rw [hvis]
        rcases mem_dkeys_dinsert hu with h1 | h1
        · subst h1
          exact List.mem_append_right _ (List.mem_singleton.mpr rfl)
        · exact List.mem_append_left _ (hPs.1 u h1)
      · intro u hu hl
        rw [hvis] at hu
        rw [hpr]
        rcases List.mem_append.mp hu with h1 | h1
        · exact mem_dkeys_dinsert_of_mem (hPs.2 u h1 hl)
        · rw [List.mem_singleton] at h1
          subst h1
          exact mem_dkeys_dinsert_self _ _ _
  exact crawl_page_pres
    (P := fun s =>
      (∀ u ∈ dkeys s.page_relevance, u ∈ s.visited_urls) ∧
      (∀ u ∈ s.visited_urls, (w.loadPage u).isSome = true →
        u ∈ dkeys s.page_relevance))
    (Q := fun _ => True) hstep (fun _ _ _ _ _ _ _ _ _ => trivial)
    st url depth trivial ⟨hsub, hload⟩

/-- C3 (amended): provided the keyword-expansion oracle returns a
non-empty sequence, the expansion is invoked at most once per run; a run
whose expansion returns the empty sequence re-invokes it on every
subsequently visited page (see the counterexample), because the cache
test at rufus.py line 217 is `if not self.keywords`. -/
theorem keywords_expanded_once (w : World) (i burl : String) (m : Nat)
    (hkw : w.expandKeywords i ≠ []) :
    kwCount (crawl w true burl i m).1.trace ≤ 1 := by
  have hstep : ∀ (s : CrawlState) (u₀ : String) (d₀ : Nat), d₀ ≤ m →
      u₀ ∉ s.visited_urls → True →
      ((s.keywords = [] ∧ kwCount s.trace = 0) ∨
        (s.keywords = w.expandKeywords i ∧ kwCount s.trace ≤ 1)) →
      (((visit_step w (normalize_base_url burl) i m s u₀ d₀).1.keywords = [] ∧
          kwCount (visit_step w (normalize_base_url burl) i m s u₀ d₀).1.trace = 0) ∨
        ((visit_step w (normalize_base_url burl) i m s u₀ d₀).1.keywords =
            w.expandKeywords i ∧
          kwCount (visit_step w (normalize_base_url burl) i m s u₀ d₀).1.trace ≤ 1)) := by
    intro s u₀ d₀ _ _ _ hPs
    rcases visit_step_kw_spec w (normalize_base_url burl) i m s u₀ d₀ with
      ⟨hne, hk, hc⟩ | ⟨he, hk, hc⟩
    · rcases hPs with ⟨he', _⟩ | ⟨hk', hc'⟩
      · exact absurd he' hne
      · exact Or.inr ⟨by rw [hk, hk'], by rw [hc]; exact hc'⟩
    · rcases hPs with ⟨_, hc'⟩ | ⟨hk', _⟩
      · exact Or.inr ⟨hk, by rw [hc, hc']⟩
      · exact absurd (hk'.symm.trans he) hkw
  have h := crawl_page_pres
    (P := fun s => (s.keywords = [] ∧ kwCount s.trace = 0) ∨
      (s.keywords = w.expandKeywords i ∧ kwCount s.trace ≤ 1))
    (Q := fun _ => True) hstep (fun _ _ _ _ _ _ _ _ _ => trivial)
    initState (normalize_base_url burl) 0 trivial (Or.inl ⟨rfl, rfl⟩)
  rcases h with ⟨_, hc⟩ | ⟨_, hc⟩
  · exact le_of_eq_of_le hc (Nat.zero_le 1)
  · exact hc

end Rufus

namespace Rufus

theorem crawl_page_dd_keys_mono (w : World) (b i : String) (m : Nat) :
    ∀ (st : CrawlState) (url : String) (depth x : Nat),
      x ∈ dkeys st.depth_data →
      x ∈ dkeys (crawl_page w b i m st url depth).depth_data := by
  intro st url depth x hx
  exact crawl_page_pres (P := fun s => x ∈ dkeys s.depth_data)
    (Q := fun _ => True)
    (fun s u d _ _ _ hP => (visit_step_dd_keys w b i m s u d).2 x hP)
    (fun _ _ _ _ _ _ _ _ _ => trivial) st url depth trivial hx

/-- C10: as soon as traversal of a URL begins at depth `d` — before the
page is loaded or classified, and also when its load then raises — the
depth index owns a key for `d`, and it persists to the end of the run;
the serialized report's `depth_analysis` lists exactly the depth-index
entries, each with its URL list and that list's length (so a depth whose
pages were all irrelevant or failed to load appears with an empty list
and count 0). -/
theorem depth_key_on_entry (w : World) (b i : String) (m : Nat)
    (st : CrawlState) (url : String) (depth : Nat)
    (hd : depth ≤ m) (hv : url ∉ st.visited_urls) :
    depth ∈ dkeys (crawl_page w b i m st url depth).depth_data ∧
    (save_results (crawl_page w b i m st url depth) b i).depth_analysis =
      (crawl_page w b i m st url depth).depth_data.map
        (fun p => (p.1, p.2, p.2.length)) := by
  refine ⟨?_, rfl⟩
  rw [crawl_page_eq, if_neg (not_or.mpr ⟨Nat.not_lt.mpr hd, hv⟩)]
  exact crawl_links_go_pres
    (P := fun s => depth ∈ dkeys s.depth_data) (Q := fun _ => True)
    (fun s u _ _ hP => crawl_page_dd_keys_mono w b i m s u (depth + 1) depth hP)
    (fun _ _ => trivial) (visit_step_dd_keys w b i m st url depth).1

/-- C4 (amended): for each page, `analyze_page_links` classifies all of
the page's qualifying links first — every link in the returned dict has
its classify-follow event already in the trace when `visit_step`
finishes — and only afterwards does `crawl_page` recurse into the
followed links (everything the recursion adds comes after that trace, in
link order).  The claim's interleaving (recurse into link i before
classifying link i+1) does not hold; see the counterexample. -/
theorem links_classified_before_descent (w : World) (b i : String) (m : Nat)
    (st : CrawlState) (url : String) (depth : Nat)
    (hguard : ¬(depth > m ∨ url ∈ st.visited_urls)) :
    (∀ p ∈ (visit_step w b i m st url depth).2,
      Event.classifyFollow p.1 ∈ (visit_step w b i m st url depth).1.trace) ∧
    (∃ t, (crawl_page w b i m st url depth).trace =
      (visit_step w b i m st url depth).1.trace ++ t) := by
  refine ⟨visit_step_cf w b i m st url depth, ?_⟩
  rw [crawl_page_eq, if_neg hguard]
  exact crawl_links_go_pres
    (P := fun s => ∃ t, s.trace =
      (visit_step w b i m st url depth).1.trace ++ t)
    (Q := fun _ => True)
    (fun s u _ _ hP => by
      obtain ⟨t, ht⟩ := hP
      obtain ⟨t2, ht2⟩ := crawl_page_trace_mono w b i m s u (depth + 1)
      exact ⟨t ++ t2, by rw [ht2, ht, List.append_assoc]⟩)
    (fun _ _ => trivial) ⟨[], by simp⟩

/-- C5 (amended): the `crawl` method has no `return` statement, so it
returns `None` on every path rather than the report; the traversal
results remain available on the crawler object afterwards, identically
whether or not writing the report file raised (the exception is caught
at rufus.py line 311), and `save_results` applied to that retained state
is the same report either way. -/
theorem crawl_returns_none (w : World) (wk : Bool) (burl i : String)
    (m : Nat) :
    (crawl w wk burl i m).2 = none ∧
    (crawl w wk burl i m).1 =
      crawl_page w (normalize_base_url burl) i m initState
        (normalize_base_url burl) 0 ∧
    (crawl w false burl i m).1 = (crawl w true burl i m).1 ∧
    save_results (crawl w false burl i m).1 (normalize_base_url burl) i =
      save_results (crawl w true burl i m).1 (normalize_base_url burl) i :=
  ⟨rfl, rfl, rfl, rfl⟩

end Rufus

namespace Rufus

/-- One `visit_step` preserves the depth-index integrity invariant:
duplicate-free per-depth lists, no URL listed under two entries of
different depth, every listed URL backed by a page record and a `true`
relevance verdict, and every listed URL already visited. -/
theorem visit_step_depth_index (w : World) (b i : String) (m : Nat)
    (s : CrawlState) (u₀ : String) (d₀ : Nat) (hnv : u₀ ∉ s.visited_urls)
    (h1 : ∀ p ∈ s.depth_data, p.2.Nodup)
    (h2 : ∀ p q : Nat × List String, p ∈ s.depth_data → q ∈ s.depth_data →
      ∀ u, u ∈ p.2 → u ∈ q.2 → p.1 = q.1)
    (h3 : ∀ p ∈ s.depth_data, ∀ u ∈ p.2,
      u ∈ dkeys s.page_data ∧ dlookup s.page_relevance u = some true)
    (h4 : ∀ p ∈ s.depth_data, ∀ u ∈ p.2, u ∈ s.visited_urls) :
    (∀ p ∈ (visit_step w b i m s u₀ d₀).1.depth_data, p.2.Nodup) ∧
    (∀ p q : Nat × List String,
      p ∈ (visit_step w b i m s u₀ d₀).1.depth_data →
      q ∈ (visit_step w b i m s u₀ d₀).1.depth_data →
      ∀ u, u ∈ p.2 → u ∈ q.2 → p.1 = q.1) ∧
    (∀ p ∈ (visit_step w b i m s u₀ d₀).1.depth_data, ∀ u ∈ p.2,
      u ∈ dkeys (visit_step w b i m s u₀ d₀).1.page_data ∧
      dlookup (visit_step w b i m s u₀ d₀).1.page_relevance u = some true) ∧
    (∀ p ∈ (visit_step w b i m s u₀ d₀).1.depth_data, ∀ u ∈ p.2,
      u ∈ (visit_step w b i m s u₀ d₀).1.visited_urls) := by
  obtain ⟨dd1, hdd1c, hcases⟩ := visit_step_data_spec w b i m s u₀ d₀
  have hvis := visit_step_visited w b i m s u₀ d₀
  have hdd1mem : ∀ p ∈ dd1, p ∈ s.depth_data ∨ p = (d₀, ([] : List String)) := by
    intro p hp
    rcases hdd1c with hc | hc
    · rw [hc] at hp; exact Or.inl hp
    · rw [hc] at hp
      rcases List.mem_append.mp hp with h | h
      · exact Or.inl h
      · exact Or.inr (List.mem_singleton.mp h)
  have hdd1a : ∀ p ∈ dd1, p.2.Nodup := by
    intro p hp
    rcases hdd1mem p hp with h | h
    · exact h1 p h
    · rw [h]; exact List.nodup_nil
  have hdd1d : ∀ p ∈ dd1, ∀ u ∈ p.2, u ∈ s.visited_urls := by
    intro p hp u hu
    rcases hdd1mem p hp with h | h
    · exact h4 p h u hu
    · rw [h] at hu; cases hu
  have hdd1b : ∀ p q : Nat × List String, p ∈ dd1 → q ∈ dd1 →
      ∀ u, u ∈ p.2 → u ∈ q.2 → p.1 = q.1 := by
    intro p q hp hq u hup huq
    rcases hdd1mem p hp with h | h
    · rcases hdd1mem q hq with h' | h'
      · exact h2 p q h h' u hup huq
      · rw [h'] at huq; cases huq
    · rw [h] at hup; cases hup
  have hdd1r : ∀ p ∈ dd1, ∀ u ∈ p.2,
      u ∈ dkeys s.page_data ∧ dlookup s.page_relevance u = some true := by
    intro p hp u hu
    rcases hdd1mem p hp with h | h
    · exact h3 p h u hu
    · rw [h] at hu; cases hu
  rcases hcases with ⟨_, hpr, hpd, hdd⟩ | ⟨hpr, hpd, hdd⟩ | ⟨hpr, hpdE, hdd⟩
  · refine ⟨?_, ?_, ?_, ?_⟩
    · intro p hp; rw [hdd] at hp; exact hdd1a p hp
    · intro p q hp hq; rw [hdd] at hp hq; exact hdd1b p q hp hq
    · intro p hp u hu
      rw [hdd] at hp
      rw [hpd, hpr]
      exact hdd1r p hp u hu
    · intro p hp u hu
      rw [hdd] at hp
      rw [hvis]
      exact List.mem_append_left _ (hdd1d p hp u hu)
  · refine ⟨?_, ?_, ?_, ?_⟩
    · intro p hp; rw [hdd] at hp; exact hdd1a p hp
    · intro p q hp hq; rw [hdd] at hp hq; exact hdd1b p q hp hq
    · intro p hp u hu
      rw [hdd] at hp
      rw [hpd, hpr]
      have hne : u ≠ u₀ := fun hc => hnv (hc ▸ hdd1d p hp u hu)
      exact ⟨(hdd1r p hp u hu).1,
        by rw [dlookup_dinsert_ne _ _ _ _ hne]; exact (hdd1r p hp u hu).2⟩
    · intro p hp u hu
      rw [hdd] at hp
      rw [hvis]
      exact List.mem_append_left _ (hdd1d p hp u hu)
  · obtain ⟨rec, hpd⟩ := hpdE
    refine ⟨?_, ?_, ?_, ?_⟩
    · intro p hp
      rw [hdd] at hp
      obtain ⟨q, hq, _, hp2⟩ := mem_dappend hp
      rcases hp2 with h | ⟨_, h⟩
      · rw [h]; exact hdd1a q hq
      · rw [h]
        rw [List.nodup_append]
        refine ⟨hdd1a q hq, List.nodup_singleton u₀, ?_⟩
        intro x hx hx'
        rw [List.mem_singleton] at hx'
        exact hnv (hx' ▸ hdd1d q hq x hx)
    · intro p q hp hq u hup huq
      rw [hdd] at hp hq
      obtain ⟨qp, hqp, hp1, hp2⟩ := mem_dappend hp
      obtain ⟨qq, hqq, hq1, hq2⟩ := mem_dappend hq
      have hmemP : u ∈ qp.2 ∨ (p.1 = d₀ ∧ u = u₀) := by
        rcases hp2 with h | ⟨hd, h⟩
        · rw [h] at hup; exact Or.inl hup
        · rw [h] at hup
          rcases List.mem_append.mp hup with h' | h'
          · exact Or.inl h'
          · exact Or.inr ⟨hd, List.mem_singleton.mp h'⟩
      have hmemQ : u ∈ qq.2 ∨ (q.1 = d₀ ∧ u = u₀) := by
        rcases hq2 with h | ⟨hd, h⟩
        · rw [h] at huq; exact Or.inl huq
        · rw [h] at huq
          rcases List.mem_append.mp huq with h' | h'
          · exact Or.inl h'
          · exact Or.inr ⟨hd, List.mem_singleton.mp h'⟩
      rcases hmemP with hP | ⟨hPd, hPu⟩
      · rcases hmemQ with hQ | ⟨_, hQu⟩
        · rw [hp1, hq1]
          exact hdd1b qp qq hqp hqq u hP hQ
        · exact absurd (hdd1d qp hqp u hP) (hQu ▸ hnv)
      · rcases hmemQ with hQ | ⟨hQd, _⟩
        · exact absurd (hdd1d qq hqq u hQ) (hPu ▸ hnv)
        · rw [hPd, hQd]
    · intro p hp u hu
      rw [hdd] at hp
      obtain ⟨q, hq, _, hp2⟩ := mem_dappend hp
      have hmemP : u ∈ q.2 ∨ u = u₀ := by
        rcases hp2 with h | ⟨_, h⟩
        · rw [h] at hu; exact Or.inl hu
        · rw [h] at hu
          rcases List.mem_append.mp hu with h' | h'
          · exact Or.inl h'
          · exact Or.inr (List.mem_singleton.mp h')
      rw [hpd, hpr]
      rcases hmemP with h | h
      · have hne : u ≠ u₀ := fun hc => hnv (hc ▸ hdd1d q hq u h)
        exact ⟨mem_dkeys_dinsert_of_mem (hdd1r q hq u h).1,
          by rw [dlookup_dinsert_ne _ _ _ _ hne]; exact (hdd1r q hq u h).2⟩
      · subst h
        exact ⟨mem_dkeys_dinsert_self _ _ _, dlookup_dinsert_self _ _ _⟩
    · intro p hp u hu
      rw [hdd] at hp
      obtain ⟨q, hq, _, hp2⟩ := mem_dappend hp
      rw [hvis]
      rcases hp2 with h | ⟨_, h⟩
      · rw [h] at hu
        exact List.mem_append_left _ (hdd1d q hq u hu)
      · rw [h] at hu
        rcases List.mem_append.mp hu with h' | h'
        · exact List.mem_append_left _ (hdd1d q hq u h')
        · exact List.mem_append_right _ h'

/-- C9: after any crawl run, every depth-index list is duplicate-free,
no URL appears under two different depths (the first-visited depth
wins), and every URL in the depth index is a key of the page-records map
with relevance verdict `true`. -/
theorem depth_index_integrity (w : World) (i burl : String) (m : Nat) :
    (∀ d l, (d, l) ∈ (crawl w true burl i m).1.depth_data → l.Nodup) ∧
    (∀ d₁ l₁ d₂ l₂ u, (d₁, l₁) ∈ (crawl w true burl i m).1.depth_data →
      (d₂, l₂) ∈ (crawl w true burl i m).1.depth_data →
      u ∈ l₁ → u ∈ l₂ → d₁ = d₂) ∧
    (∀ d l u, (d, l) ∈ (crawl w true burl i m).1.depth_data → u ∈ l →
      u ∈ dkeys (crawl w true burl i m).1.page_data ∧
      dlookup (crawl w true burl i m).1.page_relevance u = some true) := by
  have h := crawl_page_pres
    (w := w) (b := normalize_base_url burl) (i := i) (m := m)
    (P := fun s =>
      (∀ p ∈ s.depth_data, p.2.Nodup) ∧
      (∀ p q : Nat × List String, p ∈ s.depth_data → q ∈ s.depth_data →
        ∀ u, u ∈ p.2 → u ∈ q.2 → p.1 = q.1) ∧
      (∀ p ∈ s.depth_data, ∀ u ∈ p.2,
        u ∈ dkeys s.page_data ∧ dlookup s.page_relevance u = some true) ∧
      (∀ p ∈ s.depth_data, ∀ u ∈ p.2, u ∈ s.visited_urls))
    (Q := fun _ => True)
    (fun s u₀ d₀ _ hnv _ hPs =>
      visit_step_depth_index w (normalize_base_url burl) i m s u₀ d₀ hnv
        hPs.1 hPs.2.1 hPs.2.2.1 hPs.2.2.2)
    (fun _ _ _ _ _ _ _ _ _ => trivial)
    initState (normalize_base_url burl) 0 trivial
    ⟨fun _ hc => absurd hc (List.not_mem_nil _),
     fun _ _ hc => absurd hc (List.not_mem_nil _),
     fun _ hc => absurd hc (List.not_mem_nil _),
     fun _ hc => absurd hc (List.not_mem_nil _)⟩
  refine ⟨?_, ?_, ?_⟩
  · intro d l hdl
    exact h.1 (d, l) hdl
  · intro d₁ l₁ d₂ l₂ u hm1 hm2 hu1 hu2
    exact h.2.1 (d₁, l₁) (d₂, l₂) hm1 hm2 u hu1 hu2
  · intro d l u hdl hu
    exact h.2.2.1 (d, l) hdl u hu

end Rufus

namespace Rufus

/-- A small healthy test world: the base page `https://b/` links to two
in-domain children, every page loads, every page is relevant, every link
is followed, keyword expansion returns a non-empty list. -/
def wOk : World :=
  { urljoin := fun _ href => href,
    expandKeywords := fun _ => ["k"],
    loadPage := fun u =>
      if u = "https://b/" then
        some { body := "bd", title := "t",
               anchors := [{ href := "https://b/1", linkText := "l1",
                             parentText := "p1" },
                           { href := "https://b/2", linkText := "l2",
                             parentText := "p2" }] }
      else if u = "https://b/1" then
        some { body := "bd1", title := "t1", anchors := [] }
      else if u = "https://b/2" then
        some { body := "bd2", title := "t2", anchors := [] }
      else none,
    isRelevant := fun _ _ _ => true,
    shouldFollow := fun _ _ _ _ _ => true }

/-- A world in which every page load raises. -/
def wFail : World :=
  { urljoin := fun _ href => href,
    expandKeywords := fun _ => ["k"],
    loadPage := fun _ => none,
    isRelevant := fun _ _ _ => false,
    shouldFollow := fun _ _ _ _ _ => false }

/-- Like `wOk` but the keyword-expansion oracle returns the empty
sequence (the fail-closed value of `get_semantic_keywords`). -/
def wEmptyKw : World :=
  { wOk with expandKeywords := fun _ => [] }

end Rufus

namespace Rufus

/-- C1 counterexample: in a run whose base page load raises, the base URL
is in the visited set but has no relevance-map entry, so the relevance-map
domain is strictly smaller than the visited set. -/
theorem relevance_domain_counterexample :
    "https://a.com/" ∈ (crawl wFail true "a.com" "i" 2).1.visited_urls ∧
    "https://a.com/" ∉ dkeys (crawl wFail true "a.com" "i" 2).1.page_relevance := by
  decide

/-- C1 witness: the amended invariant applied to a concrete healthy run. -/
theorem relevance_domain_witness :
    ((∀ u ∈ dkeys initState.page_relevance, u ∈ initState.visited_urls) ∧
      (∀ u ∈ initState.visited_urls, (wOk.loadPage u).isSome = true →
        u ∈ dkeys initState.page_relevance)) ∧
    ((∀ u ∈ dkeys (crawl_page wOk "https://b/" "i" 1 initState
        "https://b/" 0).page_relevance,
      u ∈ (crawl_page wOk "https://b/" "i" 1 initState
        "https://b/" 0).visited_urls) ∧
    (∀ u ∈ (crawl_page wOk "https://b/" "i" 1 initState
        "https://b/" 0).visited_urls,
      (wOk.loadPage u).isSome = true →
      u ∈ dkeys (crawl_page wOk "https://b/" "i" 1 initState
        "https://b/" 0).page_relevance)) :=
  ⟨⟨by decide, by decide⟩,
   relevance_domain wOk "https://b/" "i" 1 initState "https://b/" 0
     (by decide) (by decide)⟩

/-- C3 counterexample: when the expansion oracle returns the empty
sequence, `self.keywords` stays falsy and the expansion is re-invoked on
every one of the three visited pages — three calls in one run, not at
most one. -/
theorem keywords_expanded_once_counterexample :
    kwCount (crawl wEmptyKw true "b" "i" 1).1.trace = 3 := by
  decide

/-- C3 witness: with a non-empty expansion result, a concrete three-page
run performs at most one expansion call. -/
theorem keywords_expanded_once_witness :
    wOk.expandKeywords "i" ≠ [] ∧
    kwCount (crawl wOk true "b" "i" 1).1.trace ≤ 1 :=
  ⟨by decide, keywords_expanded_once wOk "i" "b" 1 (by decide)⟩

/-- C4 counterexample: on a page with two followable links, the
classify-follow call for the second link happens strictly before the
traversal enters the first link — the code classifies all of a page's
links before any recursion, contradicting the claimed
classify-recurse-classify interleaving. -/
theorem links_classified_before_descent_counterexample :
    Event.classifyFollow "https://b/2" ∈ (crawl wOk true "b" "i" 1).1.trace ∧
    Event.enterVisit "https://b/1" 1 ∈ (crawl wOk true "b" "i" 1).1.trace ∧
    List.indexOf (Event.classifyFollow "https://b/2")
        (crawl wOk true "b" "i" 1).1.trace <
      List.indexOf (Event.enterVisit "https://b/1" 1)
        (crawl wOk true "b" "i" 1).1.trace := by
  decide

/-- C4 witness: the amended ordering applied to a concrete page visit. -/
theorem links_classified_before_descent_witness :
    (¬((0 : Nat) > 1 ∨ "https://b/" ∈ initState.visited_urls)) ∧
    ((∀ p ∈ (visit_step wOk "https://b/" "i" 1 initState "https://b/" 0).2,
      Event.classifyFollow p.1 ∈
        (visit_step wOk "https://b/" "i" 1 initState "https://b/" 0).1.trace) ∧
    (∃ t, (crawl_page wOk "https://b/" "i" 1 initState "https://b/" 0).trace =
      (visit_step wOk "https://b/" "i" 1 initState "https://b/" 0).1.trace ++ t)) :=
  ⟨by decide,
   links_classified_before_descent wOk "https://b/" "i" 1 initState
     "https://b/" 0 (by decide)⟩

/-- C5 counterexample: a successful crawl run (two pages visited, report
write succeeding) still returns `None` rather than the report. -/
theorem crawl_returns_none_counterexample :
    (crawl wOk true "b" "i" 1).2 = none ∧
    (crawl wOk true "b" "i" 1).1.visited_urls ≠ [] := by
  decide

/-- C10 witness: with every page load raising, the entry depth is keyed
in the depth index (with its empty list serialized as count 0 by
`save_results`). -/
theorem depth_key_on_entry_witness :
    ((0 : Nat) ≤ 1 ∧ "https://b/" ∉ initState.visited_urls) ∧
    ((0 : Nat) ∈ dkeys (crawl_page wFail "https://b/" "i" 1 initState
        "https://b/" 0).depth_data ∧
    (save_results (crawl_page wFail "https://b/" "i" 1 initState
        "https://b/" 0) "https://b/" "i").depth_analysis =
      (crawl_page wFail "https://b/" "i" 1 initState
        "https://b/" 0).depth_data.map (fun p => (p.1, p.2, p.2.length))) :=
  ⟨⟨by decide, by decide⟩,
   depth_key_on_entry wFail "https://b/" "i" 1 initState "https://b/" 0
     (by decide) (by decide)⟩

end Rufus
